import Mathlib

/-!
Verification of the Appy field/widget declaration layer
(`appy/fields/__init__.py`): a shallow embedding of the
Field/Group/Page/Phase layout-and-validation engine, together with proofs
about its behaviour.

Python values relevant to the embedded functions are modelled by the
inductive type `PyVal` below; machine-level details that the code never
relies on (interning, unicode vs byte strings) are not modelled.
-/

set_option maxHeartbeats 1000000

/-- Model of the Python values that flow through the embedded functions:
`None`, booleans, integers, strings, lists and tuples. -/
inductive PyVal where
  | pyNone
  | bool (b : Bool)
  | int (n : Int)
  | str (s : String)
  | list (xs : List PyVal)
  | tuple (xs : List PyVal)

/-- Python truthiness for `PyVal`: `None`, `False`, `0`, `''`, `[]` and `()`
are falsy, everything else is truthy. -/
def pyTruthy : PyVal → Bool
  | .pyNone => false
  | .bool b => b
  | .int n => n ≠ 0
  | .str s => s ≠ ""
  | .list xs => !xs.isEmpty
  | .tuple xs => !xs.isEmpty

/-- Is the value a Python `bool`? (`isinstance(v, bool)`). -/
def isBoolV : PyVal → Bool
  | .bool _ => true
  | _ => false

/-- Is the value a Python `str`? (`isinstance(v, basestring)`). -/
def isPyStr : PyVal → Bool
  | .str _ => true
  | _ => false

/-- Modelled from the spec: `appy.shared.utils.sequenceTypes` is not part of
the examined source; per the code's own comments and usage it holds the
Python sequence types `list` and `tuple` (`type(v) in sutils.sequenceTypes`). -/
def isSequenceType : PyVal → Bool
  | .list _ => true
  | .tuple _ => true
  | _ => false

/-- The elements of a Python list or tuple (other values are never iterated
by the embedded code). -/
def seqElems : PyVal → List PyVal
  | .list xs => xs
  | .tuple xs => xs
  | _ => []

/-- Python `==` between an arbitrary value and a string: true exactly for an
equal string (no Python value of another modelled type compares equal to a
string). -/
def pyEqStr : PyVal → String → Bool
  | .str t, s => t = s
  | _, _ => false

mutual
/-- Python `str(v)`. For lists and tuples the element rendering approximates
`repr`; no claim inspects the rendered form of a nested sequence. -/
def pyStr : PyVal → String
  | .pyNone => "None"
  | .bool b => if b then "True" else "False"
  | .int n => toString n
  | .str s => s
  | .list xs => "[" ++ String.intercalate ", " (pyStrList xs) ++ "]"
  | .tuple xs => "(" ++ String.intercalate ", " (pyStrList xs) ++ ")"

/-- Renders every element of a Python sequence with `pyStr`. -/
def pyStrList : List PyVal → List String
  | [] => []
  | x :: xs => pyStr x :: pyStrList xs
end

/-- Embeds `initMasterValue(v)` (module-level function): standardizes a master
value as a list of strings.  Follows the source:
`if not isinstance(v, bool) and not v: res = []`,
`elif type(v) not in sutils.sequenceTypes: res = [v]`, `else: res = v`,
then `return [str(v) for v in res]`. -/
def initMasterValue (v : PyVal) : List String :=
  let res : List PyVal :=
    if !isBoolV v && !pyTruthy v then []
    else if !isSequenceType v then [v]
    else seqElems v
  res.map pyStr

/-- Does the character list `p` occur as a prefix of `l`? (helper for the
`in` substring test of `securityCheck`). -/
def hasPrefixL : List Char → List Char → Bool
  | [], _ => true
  | _ :: _, [] => false
  | a :: as, b :: bs => a = b && hasPrefixL as bs

/-- Does the character list `p` occur as a contiguous substring of `l`?
(Python `p in l` on strings). -/
def hasInfixL (p : List Char) : List Char → Bool
  | [] => hasPrefixL p []
  | l@(_ :: rest) => hasPrefixL p l || hasInfixL p rest

/-- Embeds `Field.securityCheck`, which raises an exception exactly when the value is a
string containing the substring `<script` (XSS prevention); on any other
value it returns immediately.  This predicate is true when the check
raises. -/
def securityFails : PyVal → Bool
  | .str s => hasInfixL "<script".toList s.toList
  | _ => false

/-- Embeds `Field.isEmptyValue`: `value in nullValues` where
`nullValues = (None, '', [])`.  (The `obj` parameter is unused by the
source.) -/
def isEmptyValue : PyVal → Bool
  | .pyNone => true
  | .str s => s = ""
  | .list xs => xs.isEmpty
  | _ => false

/-- Embeds `Field.getStorableValue` (base class): returns `None` for an empty
value and the value unchanged otherwise. -/
def getStorableValue (value : PyVal) : PyVal :=
  if isEmptyValue value then .pyNone else value

/-- The collaborating object (`p_obj`) as seen by the embedded methods:
its i18n translation service, its HTTP request (`obj.REQUEST.get(name,
None)` modelled as a total map into `PyVal`, with `PyVal.pyNone` standing
for an absent key), and the CMS permission engine (`obj.allows`).  All
three are external collaborators of the examined module. -/
structure Obj where
  translate : String → String
  request : String → PyVal
  allows : String → Bool

/-- The chain of `Group` instances a field may live in, restricted to the
attributes used by `Group.getMasterData`: the group's master field (by
name), its `masterValue` list, and the containing group.  The `top`/
`nested` constructors model `self.group` being `None` or another
`Group`. -/
inductive MGroup where
  | top (master : Option String) (masterValue : List String)
  | nested (master : Option String) (masterValue : List String) (parent : MGroup)

/-- Embeds `Group.getMasterData`: the group's own master (with its
`masterValue`), or recursively the containing group's master data. -/
def groupGetMasterData : MGroup → Option (String × List String)
  | .top master masterValue => master.map fun m => (m, masterValue)
  | .nested master masterValue parent =>
    match master with
    | some m => some (m, masterValue)
    | none => groupGetMasterData parent

/-- Outcome of calling a custom validator function: a returned Python
value, or a raised exception carrying `str(e)`. -/
inductive FuncRes where
  | ret (v : PyVal)
  | exc (msg : String)

/-- The `validator` attribute of a field, as classified by
`Field.validate` against `validatorTypes`: a custom function (called with
the appy object and the storable value), a compiled regular expression
(its match test abstracted to a predicate, and the choice among the
messages `bad_email`/`bad_url`/`bad_alphanumeric`/`field_invalid` — made
by identity comparison with the predefined `String.*` patterns, which live
outside the examined module — abstracted to the message key `msgKey`), or
a validator of any other type (interval, list of values, Selection),
which `Field.validate` skips. -/
inductive Validator where
  | func (g : Obj → PyVal → FuncRes)
  | regex (rmatch : PyVal → Bool) (msgKey : String)
  | other

/-- The `show` attribute of a field: a plain value or a method (the
`callable(self.show)` branch; `callMethod`'s caching and error handling
live outside the examined behaviour and the call is modelled as a plain
function application). -/
inductive ShowV where
  | val (v : PyVal)
  | meth (g : Obj → PyVal)

/-- A `Field` instance, restricted to the attributes read by
`Field.validate`, `Field.isClientVisible`, `Field.getMasterData` and
`Field.isShowable`: `required` (derived from the multiplicity), the
master/slave data, the containing group, the type-specific validation
hook `validateValue` (overridden by subclasses; the base class always
returns `None`), the `validator`, the `show` attribute (named `showV`
here, `show` being reserved in Lean) and the two permission names
computed by `Field.init`. -/
structure FieldM where
  required : Bool
  master : Option String
  masterValue : List String
  group : Option MGroup
  validateValue : Obj → PyVal → Option String
  validator : Option Validator
  showV : ShowV
  readPermission : String
  writePermission : String

/-- Embeds `Field.getMasterData`: the field's own master (with the field's
`masterValue`), or recursively the master data of its containing
groups. -/
def getMasterData (f : FieldM) : Option (String × List String) :=
  match f.master with
  | some m => some (m, f.masterValue)
  | none =>
    match f.group with
    | some g => groupGetMasterData g
    | none => none

/-- Embeds `Field.isClientVisible`: `True` without master data; otherwise the
membership test of the master's request value in `masterValue` (a bool),
or — when the request value is a list — `True` on the first match and an
implicit `None` when the loops find none.  The Python method returns
`True`, `False` or `None`; the result is therefore a `PyVal`. -/
def isClientVisible (f : FieldM) (obj : Obj) : PyVal :=
  match getMasterData f with
  | none => .bool true
  | some (master, masterValue) =>
    let reqValue := obj.request master
    if !isSequenceType reqValue then
      .bool (masterValue.any fun s => pyEqStr reqValue s)
    else if masterValue.any fun m => (seqElems reqValue).any fun r => pyEqStr r m then
      .bool true
    else
      .pyNone

/-- Embeds `Field.validate(obj, value)`: `Except.error` models the exception
raised by `securityCheck`; a normal return is `Except.ok` of the optional
error message (`none` meaning the value is valid). -/
def validate (f : FieldM) (obj : Obj) (value : PyVal) : Except String (Option String) :=
  if isEmptyValue value then
    if f.required && pyTruthy (isClientVisible f obj) then
      .ok (some (obj.translate "field_required"))
    else
      .ok none
  else if securityFails value then
    .error "Your behaviour is considered a security attack. System administrator has been warned."
  else
    match f.validateValue obj value with
    | some message => .ok (some message)
    | none =>
      let value := getStorableValue value
      match f.validator with
      | some (.func g) =>
        match g obj value with
        | .ret validValue =>
          if isPyStr validValue && pyTruthy validValue then
            .ok (some (pyStr validValue))
          else if !pyTruthy validValue then
            .ok (some (obj.translate "field_invalid"))
          else
            .ok none
        | .exc e => .ok (some e)
      | some (.regex rmatch msgKey) =>
        if !rmatch value then .ok (some (obj.translate msgKey)) else .ok none
      | _ => .ok none

/-- The evaluated `show` value of a field (`self.show`, called on the
object when callable). -/
def showEval (f : FieldM) (obj : Obj) : PyVal :=
  match f.showV with
  | .val v => v
  | .meth g => g obj

/-- Embeds `Field.isShowable(obj, layoutType)`: permission check first
(`writePermission` on the `edit` layout, `readPermission` otherwise),
then interpretation of the evaluated `show` value: a sequence is searched
for the layout type, the strings `view`/`edit`/`result` are compared to
it, and any other value is converted to bool. -/
def isShowable (f : FieldM) (obj : Obj) (layoutType : String) : Bool :=
  let perm := if layoutType = "edit" then f.writePermission else f.readPermission
  if !obj.allows perm then false
  else
    let res := showEval f obj
    if isSequenceType res then
      (seqElems res).any fun r => pyEqStr r layoutType
    else if pyEqStr res "view" || pyEqStr res "edit" || pyEqStr res "result" then
      pyEqStr res layoutType
    else
      pyTruthy res

/-- A `Page` instance, restricted to the attributes set from the
positional arguments of `Page.__init__` (`name` and `phase`; the
`show*` button flags keep their defaults in every construction performed
by `Page.get` and are not examined by any claim). -/
structure PageRec where
  name : String
  phase : String
deriving DecidableEq

/-- The `page` argument accepted by `Page.get` and by the `Field`
constructor: `None`, a string, or a `Page` instance. -/
inductive PageArg where
  | pyNone
  | str (s : String)
  | page (p : PageRec)
deriving DecidableEq

/-- Embeds `Page.get(pageData)`.  A falsy argument (`None` or the empty string)
is returned unchanged.  A non-empty string is split with
`rsplit('_', 1)`: one part (no underscore) gives `Page(pageData)`; two
parts give `Page(pageData[0], phase=pageData[1])`, which indexes the
*original string* — its first and second characters.  Indexing raises an
`IndexError` (`Except.error`) when the string has fewer than two
characters, which happens exactly for the one-character string
consisting of an underscore. -/
def pageGet (pageData : PageArg) : Except Unit PageArg :=
  match pageData with
  | .pyNone => .ok pageData
  | .page _ => .ok pageData
  | .str s =>
    if s = "" then .ok pageData
    else if '_' ∈ s.data then
      match s.data with
      | a :: b :: _ => .ok (.page ⟨String.mk [a], String.mk [b]⟩)
      | _ => .error ()
    else
      .ok (.page ⟨s, "main"⟩)

/-- A column of a `Group` (`Column.__init__`: a width string and an
alignment defaulting to `left`). -/
structure Column where
  width : String
  align : String
deriving DecidableEq

/-- A `Group` instance, restricted to the attributes used by
`Group.get`, `Group.insertInto` and `UiGroup.__init__`/`addField`: the
group name, the `colspan` it occupies inside a containing group, its
columns (after `_setColumns`), and the containing group (`mk0` models
`group=None`, `mkIn` a containing `Group`).  The remaining presentation
attributes (`wide`, `style`, label flags, cell spacing, master data,
…) are not examined by any claim about these operations. -/
inductive GroupR where
  | mk0 (name : String) (colspan : Int) (columns : List Column)
  | mkIn (name : String) (colspan : Int) (columns : List Column) (parent : GroupR)
deriving DecidableEq

/-- The name of a group. -/
def GroupR.name : GroupR → String
  | .mk0 n _ _ => n
  | .mkIn n _ _ _ => n

/-- The colspan of a group. -/
def GroupR.colspan : GroupR → Int
  | .mk0 _ c _ => c
  | .mkIn _ c _ _ => c

/-- The columns of a group. -/
def GroupR.columns : GroupR → List Column
  | .mk0 _ _ cols => cols
  | .mkIn _ _ cols _ => cols

/-- The containing group, if any (`self.group`). -/
def GroupR.parent : GroupR → Option GroupR
  | .mk0 _ _ _ => none
  | .mkIn _ _ _ p => some p

/-- Splits a character list at its *last* underscore
(`rsplit('_', 1)`): `none` when no underscore occurs, otherwise the
characters before and after that underscore. -/
def splitAtLastUnderscore : List Char → Option (List Char × List Char)
  | [] => none
  | c :: rest =>
    match splitAtLastUnderscore rest with
    | some (a, b) => some (c :: a, b)
    | none => if c = '_' then some ([], rest) else none

/-- Parses a run of decimal digits as a natural number. -/
def parseDigits : List Char → Option Nat
  | [] => none
  | l => l.foldl (fun acc c =>
      acc.bind fun n => if c.isDigit then some (n * 10 + (c.toNat - 48)) else none)
      (some 0)

/-- Python `int(s)` on the column-count part of a group string: an
optional sign followed by decimal digits; any other shape raises
`ValueError` (`none` here; surrounding whitespace, accepted by Python,
is not modelled — no caller in the source passes padded numbers). -/
def pyParseInt (s : String) : Option Int :=
  match s.data with
  | '-' :: rest => (parseDigits rest).map fun n => -(n : Int)
  | '+' :: rest => (parseDigits rest).map fun n => (n : Int)
  | l => (parseDigits l).map fun n => (n : Int)

/-- Zero-pads a two-digit fraction. -/
def pad2 (k : Nat) : String :=
  if k < 10 then "0" ++ toString k else toString k

/-- The column width string computed in case (b) of `Group.get`:
`'%.2f%%' % (100.0 / nbOfColumns)`.  The two-decimal rendering is
reproduced with integer arithmetic (round-half-up); the corner cases of
binary floating point are not modelled — no claim inspects these
strings. -/
def pctString (n : Int) : String :=
  if n = 0 then ""
  else
    let m := n.natAbs
    let h := (20000 + m) / (2 * m)
    let sign := if n < 0 then "-" else ""
    sign ++ toString (h / 100) ++ "." ++ pad2 (h % 100) ++ "%"

/-- The `group` argument accepted by `Group.get` and by the `Field`
constructor: `None`, a string, or a `Group` instance. -/
inductive GroupArg where
  | pyNone
  | str (s : String)
  | group (g : GroupR)
deriving DecidableEq

/-- Embeds `Group.get(groupData)`.  A falsy argument (`None` or the empty
string) is returned unchanged.  A string without underscore is the group
name (`Group(groupElems[0])`, default columns `['100%']`); with an
underscore, the part after the last underscore is parsed as the number
of columns (`1` on `ValueError`) and the group gets that many columns of
equal width.  `100.0 / nbOfColumns` raises `ZeroDivisionError`
(`Except.error`) when the parsed count is `0`. -/
def groupGet (groupData : GroupArg) : Except Unit GroupArg :=
  match groupData with
  | .pyNone => .ok groupData
  | .group _ => .ok groupData
  | .str s =>
    if s = "" then .ok groupData
    else
      match splitAtLastUnderscore s.data with
      | none => .ok (.group (.mk0 s 1 [⟨"100%", "left"⟩]))
      | some (nameChars, nbChars) =>
        let nb : Int := (pyParseInt (String.mk nbChars)).getD 1
        if nb = 0 then .error ()
        else
          .ok (.group (.mk0 (String.mk nameChars) 1
            (List.replicate nb.toNat ⟨pctString nb, "left"⟩)))

/-- Is this `group` attribute value a `Group` instance? -/
def isGroupInstance : GroupArg → Bool
  | .group _ => true
  | _ => false

/-- The page- and group-related attributes set by `Field.__init__`:
`self.page = Page.get(page)`, `self.pageName = self.page.name`,
`self.group = Group.get(group)`. -/
structure FieldPG where
  page : PageArg
  pageName : String
  group : GroupArg
deriving DecidableEq

/-- The fragment of `Field.__init__` that computes the `page`,
`pageName` and `group` attributes, in source order.  Reading
`self.page.name` raises an `AttributeError` (`Except.error`) when
`Page.get` returned something that is not a `Page` (a falsy argument
passed through). -/
def fieldNewPG (pageArg : PageArg) (groupArg : GroupArg) : Except Unit FieldPG :=
  match pageGet pageArg with
  | .error e => .error e
  | .ok pg =>
    match pg with
    | .page p =>
      match groupGet groupArg with
      | .error e => .error e
      | .ok grp => .ok { page := pg, pageName := p.name, group := grp }
    | _ => .error ()

/-- Truthiness of a `page`/`group` argument (`None` and `''` are the
falsy cases). -/
def pageArgTruthy : PageArg → Bool
  | .pyNone => false
  | .str s => s ≠ ""
  | .page _ => true

/-- A cell of a `UiGroup` row: a widget (a field or an inner `UiGroup`,
identified by name, with the colspan it declares), or the empty string
`''` appended by `addField` to terminate an incomplete row. -/
inductive Cell where
  | item (id : String) (colspan : Int)
  | filler
deriving DecidableEq

/-- The colspan a cell occupies in its row.  A filler cell fills exactly
one column (`addField` appends one `''` per free column); `addField`
itself only ever reads the colspan of widget cells, since the row it
extends never contains fillers. -/
def cellColspan : Cell → Int
  | .item _ c => c
  | .filler => 1

/-- The number of columns filled by a row (`filledColumns` in
`addField`). -/
def rowSpan (row : List Cell) : Int :=
  (row.map cellColspan).sum

/-- The row structure update performed by `UiGroup.addField`: append the
new cell to the last row when it still has room, otherwise terminate the
last row with one `''` filler per remaining free column
(`for i in range(freeColumns)` — a no-op when `freeColumns` is not
positive) and start a new row holding just the new cell.  `self.fields`
is initialized to `[[]]` and never becomes empty, so the `rows = []`
case is unreachable. -/
def addFieldRows (rows : List (List Cell)) (numberOfColumns : Nat) (c : Cell) :
    List (List Cell) :=
  let lastRow := rows.getLastD []
  let filledColumns := rowSpan lastRow
  let freeColumns : Int := (numberOfColumns : Int) - filledColumns
  if cellColspan c ≤ freeColumns then
    rows.dropLast ++ [lastRow ++ [c]]
  else
    rows.dropLast ++ [lastRow ++ List.replicate freeColumns.toNat .filler, [c]]

/-- A `UiGroup` instance, restricted to the attributes used by
`Group.insertInto` and `UiGroup.addField`: the copied group attributes
`name` and `colspan`, the column widths extracted from the group's
columns, and the row-of-cells structure `fields`.  The i18n label ids,
the page name and the rendering PX also set by `UiGroup.__init__` are
not examined by any claim. -/
structure UiGroupM where
  name : String
  colspan : Int
  columnsWidths : List String
  fields : List (List Cell)
deriving DecidableEq

/-- Embeds `UiGroup.__init__(group, ...)`: copies the group's attributes, derives
`columnsWidths` from its columns, and starts with the single empty row
`[[]]`. -/
def uiGroupInit (g : GroupR) : UiGroupM :=
  { name := g.name
    colspan := g.colspan
    columnsWidths := g.columns.map Column.width
    fields := [[]] }

/-- Embeds `UiGroup.addField(field)`. -/
def addField (u : UiGroupM) (c : Cell) : UiGroupM :=
  { u with fields := addFieldRows u.fields u.columnsWidths.length c }

/-- An entry of the page-level `p_fields` list built while laying out a
page: a plain widget, or a `UiGroup` (stored in the `p_uiGroups` table
under its name — in Python the list and the table alias the same
`UiGroup` object, which the embedding represents by reference through
the name). -/
inductive Item where
  | widget (id : String)
  | groupRef (name : String)
deriving DecidableEq

/-- The pair of structures threaded through `Group.insertInto`: the
recursive display list `p_fields` and the name-keyed table
`p_uiGroups`. -/
structure InsertState where
  fields : List Item
  uiGroups : List (String × UiGroupM)
deriving DecidableEq

/-- Lookup in the `p_uiGroups` table (`self.name in uiGroups` /
`uiGroups[self.name]`). -/
def alLookup : List (String × UiGroupM) → String → Option UiGroupM
  | [], _ => none
  | (k, v) :: rest, key => if k = key then some v else alLookup rest key

/-- Binding update in the `p_uiGroups` table
(`uiGroups[self.name] = …`). -/
def alInsert : List (String × UiGroupM) → String → UiGroupM → List (String × UiGroupM)
  | [], key, v => [(key, v)]
  | (k, v0) :: rest, key, v =>
    if k = key then (k, v) :: rest else (k, v0) :: alInsert rest key v

/-- In-place mutation of the `UiGroup` stored under `key`
(`outerGroup.addField(uiGroup)` mutates the object aliased by the table
and the display list). -/
def alUpdate : List (String × UiGroupM) → String → (UiGroupM → UiGroupM) →
    List (String × UiGroupM)
  | [], _, _ => []
  | (k, v) :: rest, key, f =>
    if k = key then (k, f v) :: rest else (k, v) :: alUpdate rest key f

/-- Embeds `Group.insertInto(fields, uiGroups, page, metaType, forSearch)`.
Returns the updated state together with (the name of) the returned
`UiGroup`.  The `page`, `metaType` and `forSearch` parameters only
influence the `UiGroup` attributes omitted from `UiGroupM` (label ids,
page name, rendering PX) and are therefore not threaded through. -/
def insertInto : GroupR → InsertState → InsertState × String
  | .mk0 name colspan columns, st =>
    match alLookup st.uiGroups name with
    | some _ => (st, name)
    | none =>
      let ui := uiGroupInit (.mk0 name colspan columns)
      let st1 : InsertState := { st with uiGroups := alInsert st.uiGroups name ui }
      ({ st1 with fields := st1.fields ++ [Item.groupRef name] }, name)
  | .mkIn name colspan columns pg, st =>
    match alLookup st.uiGroups name with
    | some _ => (st, name)
    | none =>
      let ui := uiGroupInit (.mkIn name colspan columns pg)
      let st1 : InsertState := { st with uiGroups := alInsert st.uiGroups name ui }
      let r := insertInto pg st1
      ({ r.1 with
          uiGroups := alUpdate r.1.uiGroups r.2 fun u => addField u (.item name colspan) },
        name)

/-- The `label` attribute of a field before `Field.init`: a string (a
replacement prefix) or a 2-tuple `(prefix, name)` whose components may
be `None`.  A field may also have no label (`None`), modelled by
`Option Lbl` at the use site. -/
inductive Lbl where
  | str (s : String)
  | tup (a b : Option String)
deriving DecidableEq

/-- Truthiness of the `label` attribute (`if self.label:`): an empty
string is falsy, any 2-tuple is truthy. -/
def lblTruthy : Lbl → Bool
  | .str s => s ≠ ""
  | .tup _ _ => true

/-- An element of `self.slaves`: a field (or a slave `Group`) on which
`Field.init` sets the `masterName` attribute.  Only its identity and its
`masterName` are relevant. -/
structure Slave where
  sid : String
  masterName : Option String
deriving DecidableEq

/-- A component of a label tuple when truthy, the default otherwise
(`if self.label[i]: … = self.label[i]`). -/
def optTruthyVal (o : Option String) (dflt : String) : String :=
  match o with
  | some s => if s = "" then dflt else s
  | none => dflt

/-- A `Field` as seen by the secondary constructor `Field.init`:
`name = none` models a not-yet-initialized field
(`hasattr(self, 'name')` is false), and the attributes that `init`
computes.  The permission attributes and the `Ref`/`List` recursion
also performed by `init` concern subclasses outside the examined
excerpt and are omitted. -/
structure InitField where
  name : Option String
  label : Option Lbl
  slaves : List Slave
  labelId : String
  descrId : String
  helpId : String
deriving DecidableEq

/-- Embeds `Field.init(name, klass, appName)`.  `getClassName` abstracts
`appy.gen.utils.getClassName`, which lives outside the examined module;
`klass` is identified by its class name.  On an already-initialized
field (`hasattr(self, 'name')`), the method returns immediately. -/
def fieldInit (getClassName : String → String → String) (f : InitField)
    (name : String) (klass : Option String) (appName : String) : InitField :=
  if f.name.isSome then f
  else
    let pfx :=
      match klass with
      | none => appName
      | some k => getClassName k appName
    let slaves := f.slaves.map fun s => { s with masterName := some name }
    let (trPfx, labelName) :=
      match f.label with
      | some l =>
        if lblTruthy l then
          match l with
          | .str s => (s, name)
          | .tup a b => (optTruthyVal a pfx, optTruthyVal b name)
        else (pfx, name)
      | none => (pfx, name)
    let labelId := trPfx ++ "_" ++ labelName
    { f with
        name := some name
        slaves := slaves
        labelId := labelId
        descrId := labelId ++ "_descr"
        helpId := labelId ++ "_help" }

/-- The information object stored in `pagesInfo` for a page
(`Object(page=…, showOnView=…, …)`): its content is never examined by
the navigation methods, so it is an opaque tag. -/
structure PageInfo where
  tag : Nat
deriving DecidableEq

/-- The pages and page information of a phase, as accessed on
`self.previousPhase`/`self.nextPhase` by the navigation methods (only
`pages` and `pagesInfo` of a linked phase are ever read). -/
structure PhaseData where
  pages : List String
  pagesInfo : List (String × PageInfo)
deriving DecidableEq

/-- A `Phase`, restricted to the attributes used by `getPreviousPage`
and `getNextPage`: the page-name list, the `pagesInfo` dictionary, and
the two phase links filled by `computeNextPrevious`. -/
structure PhaseM where
  pages : List String
  pagesInfo : List (String × PageInfo)
  previousPhase : Option PhaseData
  nextPhase : Option PhaseData

/-- Python `list.index(x)`: the index of the first occurrence, `none`
modelling the `ValueError` caught by the navigation methods. -/
def pyIndex : List String → String → Option Nat
  | [], _ => none
  | a :: rest, x => if a = x then some 0 else (pyIndex rest x).map (· + 1)

/-- Python dictionary access `pagesInfo[res]`: `Except.error` models the
`KeyError` raised on a missing key. -/
def pyDictGet : List (String × PageInfo) → String → Except Unit PageInfo
  | [], _ => .error ()
  | (k, v) :: rest, key => if k = key then .ok v else pyDictGet rest key

/-- Embeds `Phase.getNextPage(page)`: the page following `p_page` in this
phase, or the first page of the next phase, or `(None, None)`; when
`p_page` is not in `self.pages` (not visible anymore), the first page of
the current phase.  `Except.error` models the `IndexError`/`KeyError`
raised on an empty page list or a missing `pagesInfo` entry. -/
def getNextPage (ph : PhaseM) (page : String) :
    Except Unit (Option String × Option PageInfo) :=
  match pyIndex ph.pages page with
  | none =>
    match ph.pages with
    | [] => .error ()
    | p :: _ => do
      let i ← pyDictGet ph.pagesInfo p
      .ok (some p, some i)
  | some pageIndex =>
    if pageIndex + 1 < ph.pages.length then
      match ph.pages.get? (pageIndex + 1) with
      | some p => do
        let i ← pyDictGet ph.pagesInfo p
        .ok (some p, some i)
      | none => .error ()
    else
      match ph.nextPhase with
      | some np =>
        match np.pages with
        | [] => .error ()
        | p :: _ => do
          let i ← pyDictGet np.pagesInfo p
          .ok (some p, some i)
      | none => .ok (none, none)

/-- Embeds `Phase.getPreviousPage(page)`: the page preceding `p_page` in this
phase, or the last page of the previous phase, or `(None, None)`; when
`p_page` is not in `self.pages`, the first page of the current phase. -/
def getPreviousPage (ph : PhaseM) (page : String) :
    Except Unit (Option String × Option PageInfo) :=
  match pyIndex ph.pages page with
  | none =>
    match ph.pages with
    | [] => .error ()
    | p :: _ => do
      let i ← pyDictGet ph.pagesInfo p
      .ok (some p, some i)
  | some pageIndex =>
    if 0 < pageIndex then
      match ph.pages.get? (pageIndex - 1) with
      | some p => do
        let i ← pyDictGet ph.pagesInfo p
        .ok (some p, some i)
      | none => .error ()
    else
      match ph.previousPhase with
      | some pp =>
        match pp.pages.getLast? with
        | some p => do
          let i ← pyDictGet pp.pagesInfo p
          .ok (some p, some i)
        | none => .error ()
      | none => .ok (none, none)

/-- Masterlessness of a group chain, phrased as the spec does: neither
this group nor, recursively, any containing group has a master. -/
def mgroupNoMaster : MGroup → Prop
  | .top m _ => m = none
  | .nested m _ p => m = none ∧ mgroupNoMaster p

/-- Masterlessness of a field: neither the field itself nor,
recursively, any of its containing groups has a master. -/
def fieldNoMaster (f : FieldM) : Prop :=
  f.master = none ∧
  match f.group with
  | some g => mgroupNoMaster g
  | none => True

/-- The visibility condition stated by the master/slave rule: the
master's request value — a single value, or any element when the request
value is a list — equals one of the strings in `masterValue`. -/
def matchesMaster (reqValue : PyVal) (masterValue : List String) : Prop :=
  if isSequenceType reqValue then
    ∃ r ∈ seqElems reqValue, ∃ s ∈ masterValue, r = PyVal.str s
  else
    ∃ s ∈ masterValue, reqValue = PyVal.str s

/-- Acceptance of a value by the configured validator, as
`Field.validate` interprets it: a function validator accepts when it
returns (without raising) a truthy non-string; a regular-expression
validator accepts when it matches the storable value; any other
validator (or no validator) imposes no constraint at this level. -/
def validatorAccepts (f : FieldM) (obj : Obj) (value : PyVal) : Bool :=
  match f.validator with
  | some (.func g) =>
    match g obj (getStorableValue value) with
    | .ret r => pyTruthy r && !isPyStr r
    | .exc _ => false
  | some (.regex rmatch _) => rmatch (getStorableValue value)
  | _ => true

/-- The row-structure invariant maintained by `UiGroup.addField`: the
row list is never empty; every row but the last fills the group's
columns exactly (a filler cell counting as one column); the last row —
which never contains fillers, those being appended only when a row is
terminated — fills at most the group's columns. -/
def uiRowsInv (rows : List (List Cell)) (numberOfColumns : Nat) : Prop :=
  rows ≠ [] ∧
  (∀ row ∈ rows.dropLast, rowSpan row = (numberOfColumns : Int)) ∧
  rowSpan (rows.getLastD []) ≤ (numberOfColumns : Int) ∧
  ∀ c ∈ rows.getLastD [], c ≠ Cell.filler

/-- Does the `pagesInfo` dictionary hold an entry for the given page
name? (the invariant `addPage` maintains for every listed page). -/
def dictHas (d : List (String × PageInfo)) (p : String) : Bool :=
  match pyDictGet d p with
  | .ok _ => true
  | .error _ => false

theorem pyEqStr_iff (v : PyVal) (s : String) : pyEqStr v s = true ↔ v = PyVal.str s := by
  cases v <;> simp [pyEqStr]

theorem mgroupNoMaster_iff (g : MGroup) :
    mgroupNoMaster g ↔ groupGetMasterData g = none := by
  induction g with
  | top m mv => cases m <;> simp [mgroupNoMaster, groupGetMasterData]
  | nested m mv p ih => cases m <;> simp [mgroupNoMaster, groupGetMasterData, ih]

/-- C8 counterexample: the integer `0` is neither a list nor a tuple, yet
`initMasterValue(0)` returns the empty list, not `[str(0)] = ['0']` as the
claim states for values other than `None`, `''` and `[]`. -/
theorem initMasterValue_int_zero :
    initMasterValue (PyVal.int 0) = [] ∧
    initMasterValue (PyVal.int 0) ≠ [pyStr (PyVal.int 0)] := by
  decide

/-- C8 (amended): `initMasterValue(v)` always returns a list of strings:
a non-boolean *falsy* input (`None`, `''`, `0`, …) returns the empty
list; a boolean returns `['False']`/`['True']`; any *truthy* value that
is not a list or tuple returns `[str(v)]`; and a list or tuple returns
the list of `str` applied to each of its elements. -/
theorem initMasterValue_spec (v : PyVal) :
    (isBoolV v = false → pyTruthy v = false → initMasterValue v = []) ∧
    (∀ b, v = PyVal.bool b → initMasterValue v = [if b then "True" else "False"]) ∧
    (pyTruthy v = true → isSequenceType v = false → initMasterValue v = [pyStr v]) ∧
    (∀ xs, v = PyVal.list xs → initMasterValue v = xs.map pyStr) ∧
    (∀ xs, v = PyVal.tuple xs → initMasterValue v = xs.map pyStr) := by
  refine ⟨?_, ?_, ?_, ?_, ?_⟩
  · intro hb ht
    simp [initMasterValue, hb, ht]
  · rintro b rfl
    cases b <;> simp [initMasterValue, isBoolV, pyTruthy, isSequenceType, pyStr]
  · intro ht hs
    simp [initMasterValue, ht, hs]
  · rintro xs rfl
    by_cases hxs : xs.isEmpty <;>
      simp_all [initMasterValue, isBoolV, pyTruthy, isSequenceType, seqElems, List.isEmpty_iff]
  · rintro xs rfl
    by_cases hxs : xs.isEmpty <;>
      simp_all [initMasterValue, isBoolV, pyTruthy, isSequenceType, seqElems, List.isEmpty_iff]

/-- C8 witness: the amended theorem applied to the boolean `False`. -/
theorem initMasterValue_spec_witness : initMasterValue (PyVal.bool false) = ["False"] := by
  have h := (initMasterValue_spec (PyVal.bool false)).2.1 false rfl
  simpa using h

/-- C9 counterexample: the one-character string `'_'` contains an
underscore, but `Page.get('_')` raises an `IndexError` (`pageData[1]` on
a length-one string) instead of returning a `Page`. -/
theorem pageGet_underscore_only : pageGet (PageArg.str "_") = .error () := by
  rfl

/-- C9 (amended): `Page.get` on a string containing an underscore
returns a `Page` whose name is the first character and whose phase is
the second character — provided the string has at least two characters;
the sole one-character string containing an underscore, `'_'`, raises an
`IndexError` instead.  A string without underscore yields
`Page(s, 'main')`, and a falsy argument (`None` or `''`) is returned
unchanged, so the result is not a `Page` instance in that case. -/
theorem pageGet_spec (arg : PageArg) :
    (∀ s a b rest, arg = PageArg.str s → s.data = a :: b :: rest →
      '_' ∈ s.data →
      pageGet arg = .ok (.page ⟨String.mk [a], String.mk [b]⟩)) ∧
    (∀ s, arg = PageArg.str s → s ≠ "" → '_' ∉ s.data →
      pageGet arg = .ok (.page ⟨s, "main"⟩)) ∧
    (arg = PageArg.pyNone → pageGet arg = .ok PageArg.pyNone) ∧
    (arg = PageArg.str "" → pageGet arg = .ok (PageArg.str "")) ∧
    pageGet (PageArg.str "_") = .error () := by
  refine ⟨?_, ?_, ?_, ?_, by rfl⟩
  · rintro s a b rest rfl hdata hmem
    have hne : ¬(s = "") := by
      intro h
      rw [h] at hdata
      simp [String.data] at hdata
    simp only [pageGet]
    rw [if_neg hne, if_pos hmem, hdata]
  · rintro s rfl hne hmem
    simp only [pageGet]
    rw [if_neg hne, if_neg hmem]
  · rintro rfl
    rfl
  · rintro rfl
    rfl

/-- C9 witness: the amended theorem applied to the spec's example
`'summary_main'`, which yields name `'s'` and phase `'u'`. -/
theorem pageGet_spec_witness :
    pageGet (PageArg.str "summary_main") = .ok (.page ⟨"s", "u"⟩) := by
  have h := (pageGet_spec (PageArg.str "summary_main")).1 "summary_main" 's' 'u'
    "mmary_main".data rfl (by decide) (by decide)
  simpa using h

/-- C2: `Field.isClientVisible(obj)` is truthy when neither the field
nor, recursively, any of its containing groups has a master (which is
exactly when `getMasterData` finds nothing); otherwise, with
`(master, masterValue)` the nearest master data found by
`getMasterData`, it is truthy if and only if the master's value in the
request — a single value, or any element when the request value is a
list — equals one of the strings in `masterValue`. -/
theorem isClientVisible_spec (f : FieldM) (obj : Obj) :
    (fieldNoMaster f ↔ getMasterData f = none) ∧
    (fieldNoMaster f → pyTruthy (isClientVisible f obj) = true) ∧
    (∀ m mv, getMasterData f = some (m, mv) →
      (pyTruthy (isClientVisible f obj) = true ↔ matchesMaster (obj.request m) mv)) := by
  have hiff : fieldNoMaster f ↔ getMasterData f = none := by
    unfold fieldNoMaster getMasterData
    cases hm : f.master with
    | some m => simp
    | none =>
      cases hg : f.group with
      | none => simp
      | some g => simp [mgroupNoMaster_iff]
  refine ⟨hiff, ?_, ?_⟩
  · intro h
    rw [hiff] at h
    simp [isClientVisible, h, pyTruthy]
  · intro m mv hd
    simp only [isClientVisible, hd]
    by_cases hseq : isSequenceType (obj.request m) = true
    · rw [if_neg (by simp [hseq])]
      by_cases hany :
          (mv.any fun m0 => (seqElems (obj.request m)).any fun r => pyEqStr r m0) = true
      · rw [if_pos hany]
        simp only [pyTruthy, matchesMaster, if_pos hseq]
        simp only [List.any_eq_true, pyEqStr_iff] at hany
        obtain ⟨s, hs, r, hr, hrs⟩ := hany
        simp only [eq_self_iff_true, true_iff]
        exact ⟨r, hr, s, hs, hrs⟩
      · rw [if_neg hany]
        simp only [pyTruthy, matchesMaster, if_pos hseq]
        simp only [List.any_eq_true, pyEqStr_iff] at hany
        constructor
        · intro h
          exact absurd h (by simp)
        · rintro ⟨r, hr, s, hs, hrs⟩
          exact absurd ⟨s, hs, r, hr, hrs⟩ hany
    · have hseq' : isSequenceType (obj.request m) = false := by
        simpa using hseq
      rw [if_pos (by simp [hseq'])]
      simp only [pyTruthy, matchesMaster, hseq', List.any_eq_true, pyEqStr_iff,
        if_neg (by simp : ¬(false = true))]

/-- C2 witness: a field whose master `m` carries the request value
`'yes'`, one of the strings in `masterValue`, is client-visible. -/
theorem isClientVisible_spec_witness :
    pyTruthy (isClientVisible
      { required := false, master := some "m", masterValue := ["yes"], group := none,
        validateValue := fun _ _ => none, validator := none,
        showV := .val (.bool true), readPermission := "View",
        writePermission := "Modify portal content" }
      { translate := fun s => s,
        request := fun n => if n = "m" then .str "yes" else .pyNone,
        allows := fun _ => true }) = true := by
  refine ((isClientVisible_spec
      { required := false, master := some "m", masterValue := ["yes"], group := none,
        validateValue := fun _ _ => none, validator := none,
        showV := .val (.bool true), readPermission := "View",
        writePermission := "Modify portal content" }
      { translate := fun s => s,
        request := fun n => if n = "m" then .str "yes" else .pyNone,
        allows := fun _ => true }).2.2 "m" ["yes"] rfl).mpr ?_
  simp [matchesMaster, isSequenceType]

/-- C3: `Field.isShowable(obj, layoutType)` is `False` whenever the
permission check fails (`writePermission` on the `edit` layout,
`readPermission` otherwise), regardless of the `show` attribute; with
the permission granted, a sequence `show` value yields `True` iff the
layout type occurs in it, a `show` value among the strings
`'view'`/`'edit'`/`'result'` yields `True` iff it equals the layout
type, and any other `show` value is converted to bool. -/
theorem isShowable_spec (f : FieldM) (obj : Obj) (layoutType : String) :
    (obj.allows (if layoutType = "edit" then f.writePermission else f.readPermission)
        = false →
      isShowable f obj layoutType = false) ∧
    (obj.allows (if layoutType = "edit" then f.writePermission else f.readPermission)
        = true →
      (isSequenceType (showEval f obj) = true →
        (isShowable f obj layoutType = true ↔
          ∃ r ∈ seqElems (showEval f obj), r = PyVal.str layoutType)) ∧
      (∀ s, showEval f obj = PyVal.str s → (s = "view" ∨ s = "edit" ∨ s = "result") →
        (isShowable f obj layoutType = true ↔ s = layoutType)) ∧
      (isSequenceType (showEval f obj) = false →
        (∀ s, showEval f obj = PyVal.str s → ¬(s = "view" ∨ s = "edit" ∨ s = "result")) →
        isShowable f obj layoutType = pyTruthy (showEval f obj))) := by
  constructor
  · intro h
    simp [isShowable, h]
  · intro h
    refine ⟨?_, ?_, ?_⟩
    · intro hseq
      simp [isShowable, h, hseq, List.any_eq_true, pyEqStr_iff]
    · intro s hs hmem
      rcases hmem with rfl | rfl | rfl <;>
        simp [isShowable, h, hs, isSequenceType, seqElems, pyEqStr]
    · intro hseq hstr
      simp only [isShowable, h, Bool.not_true, Bool.false_eq_true, if_false,
        hseq, if_neg (by simp : ¬(false = true))]
      cases hv : showEval f obj with
      | str s =>
        have := hstr s hv
        rw [if_neg]
        simp only [pyEqStr]
        push_neg at this
        simp [this.1, this.2.1, this.2.2]
      | _ => simp [pyEqStr]

/-- C3 witness: a field with `show = 'edit'` is showable on the `edit`
layout for an object granting all permissions. -/
theorem isShowable_spec_witness :
    isShowable
      { required := false, master := none, masterValue := [], group := none,
        validateValue := fun _ _ => none, validator := none,
        showV := .val (.str "edit"), readPermission := "View",
        writePermission := "Modify portal content" }
      { translate := fun s => s, request := fun _ => .pyNone, allows := fun _ => true }
      "edit" = true := by
  refine (((isShowable_spec
      { required := false, master := none, masterValue := [], group := none,
        validateValue := fun _ _ => none, validator := none,
        showV := .val (.str "edit"), readPermission := "View",
        writePermission := "Modify portal content" }
      { translate := fun s => s, request := fun _ => .pyNone, allows := fun _ => true }
      "edit").2 rfl).2.1 "edit" rfl (by simp)).mpr rfl

/-- C1: `Field.validate(obj, value)` returns `None` on an empty value
(`None`, `''` or `[]`) unless the field is required and client-visible
per the master/slave rules, in which case it returns the translated
`field_required` message; on a non-empty value it returns `None` exactly
when the security check passes and the type-specific validation and the
configured custom/regular-expression validator all accept the value, and
otherwise an error message is produced (returned, or — for the security
check — carried by the raised exception). -/
theorem validate_spec (f : FieldM) (obj : Obj) (value : PyVal) :
    (isEmptyValue value = true →
      (f.required = true → pyTruthy (isClientVisible f obj) = true →
        validate f obj value = .ok (some (obj.translate "field_required"))) ∧
      (f.required = false ∨ pyTruthy (isClientVisible f obj) = false →
        validate f obj value = .ok none)) ∧
    (isEmptyValue value = false →
      (validate f obj value = .ok none ↔
        securityFails value = false ∧ f.validateValue obj value = none ∧
          validatorAccepts f obj value = true) ∧
      (validate f obj value ≠ .ok none →
        (∃ m, validate f obj value = .ok (some m)) ∨
          (∃ m, validate f obj value = .error m))) := by
  constructor
  · intro hemp
    constructor
    · intro hreq hvis
      simp [validate, hemp, hreq, hvis]
    · intro h
      rcases h with h | h <;> simp [validate, hemp, h]
  · intro hemp
    constructor
    · simp only [validate, hemp, Bool.false_eq_true, if_false]
      by_cases hsec : securityFails value = true
      · simp [hsec]
      · have hsec' : securityFails value = false := by simpa using hsec
        simp only [hsec', Bool.false_eq_true, if_false, validatorAccepts]
        cases hvv : f.validateValue obj value with
        | some m => simp
        | none =>
          simp only
          cases hval : f.validator with
          | none => simp
          | some v =>
            cases v with
            | other => simp
            | func g =>
              cases hg : g obj (getStorableValue value) with
              | exc e => simp [hg]
              | ret r =>
                by_cases hstr : isPyStr r = true
                · by_cases ht : pyTruthy r = true
                  · simp [hg, hstr, ht]
                  · simp [hg, hstr, ht, (by simpa using ht : pyTruthy r = false)]
                · have hstr' : isPyStr r = false := by simpa using hstr
                  by_cases ht : pyTruthy r = true
                  · simp [hg, hstr', ht]
                  · simp [hg, hstr', ht, (by simpa using ht : pyTruthy r = false)]
            | regex rmatch msgKey =>
              by_cases hm : rmatch (getStorableValue value) = true
              · simp [hm]
              · simp [hm, (by simpa using hm : rmatch (getStorableValue value) = false)]
    · intro hne
      cases hv : validate f obj value with
      | error e => exact Or.inr ⟨e, rfl⟩
      | ok o =>
        cases o with
        | none => exact absurd hv hne
        | some m => exact Or.inl ⟨m, rfl⟩

/-- C1 witness: a plain optional field with no validator accepts the
non-empty value `'hi'`. -/
theorem validate_spec_witness :
    validate
      { required := false, master := none, masterValue := [], group := none,
        validateValue := fun _ _ => none, validator := none,
        showV := .val (.bool true), readPermission := "View",
        writePermission := "Modify portal content" }
      { translate := fun s => s, request := fun _ => .pyNone, allows := fun _ => true }
      (PyVal.str "hi") = .ok none := by
  refine ((validate_spec
      { required := false, master := none, masterValue := [], group := none,
        validateValue := fun _ _ => none, validator := none,
        showV := .val (.bool true), readPermission := "View",
        writePermission := "Modify portal content" }
      { translate := fun s => s, request := fun _ => .pyNone, allows := fun _ => true }
      (PyVal.str "hi")).2 (by decide)).1.mpr ⟨by decide, rfl, by decide⟩

/-- C7 counterexample: on a not-yet-initialized field whose `label` is
the empty string, `Field.init` does *not* use the label as translation
prefix (`if self.label:` is false on `''`): the class-derived prefix is
used, so `labelId` is `'MyApp_title'` and not `'_title'`. -/
theorem fieldInit_empty_label :
    (fieldInit (fun k _ => k)
      { name := none, label := some (.str ""), slaves := [],
        labelId := "", descrId := "", helpId := "" }
      "title" none "MyApp").labelId = "MyApp_title" ∧
    (fieldInit (fun k _ => k)
      { name := none, label := some (.str ""), slaves := [],
        labelId := "", descrId := "", helpId := "" }
      "title" none "MyApp").labelId ≠ "_title" := by
  constructor
  · rfl
  · decide

/-- C7 (amended): after `Field.init(name, klass, appName)` on a
not-yet-initialized field, `labelId` equals `'<prefix>_<labelName>'`
where the prefix is derived from `klass` (or is `appName` when `klass`
is `None`) and the label name is the field name — except that a
*non-empty* string `self.label` replaces the prefix (an empty string
label is falsy and ignored), and a tuple `self.label` replaces, for each
non-empty component, the prefix (first component) and the label name
(second component); `descrId` and `helpId` append `'_descr'` and
`'_help'` to `labelId`; and every entry of `self.slaves` gets
`masterName` set to the field name. -/
theorem fieldInit_spec (getClassName : String → String → String) (f : InitField)
    (name : String) (klass : Option String) (appName : String)
    (h : f.name = none) :
    (fieldInit getClassName f name klass appName).labelId =
      (match f.label with
        | some (.str s) =>
          if s = "" then
            (match klass with | none => appName | some k => getClassName k appName)
          else s
        | some (.tup a _) =>
          optTruthyVal a
            (match klass with | none => appName | some k => getClassName k appName)
        | none =>
          (match klass with | none => appName | some k => getClassName k appName))
      ++ "_" ++
      (match f.label with
        | some (.tup _ b) => optTruthyVal b name
        | _ => name) ∧
    (fieldInit getClassName f name klass appName).descrId =
      (fieldInit getClassName f name klass appName).labelId ++ "_descr" ∧
    (fieldInit getClassName f name klass appName).helpId =
      (fieldInit getClassName f name klass appName).labelId ++ "_help" ∧
    (fieldInit getClassName f name klass appName).slaves =
      f.slaves.map (fun s => { s with masterName := some name }) ∧
    (fieldInit getClassName f name klass appName).name = some name := by
  have hns : f.name.isSome = false := by simp [h]
  cases hl : f.label with
  | none =>
    simp [fieldInit, hns, hl, lblTruthy]
  | some l =>
    cases l with
    | str s =>
      by_cases hs : s = ""
      · subst hs
        simp [fieldInit, hns, hl, lblTruthy]
      · simp [fieldInit, hns, hl, lblTruthy, hs]
    | tup a b =>
      simp [fieldInit, hns, hl, lblTruthy]

/-- C7 witness: a field with label tuple `(None, 'other')` gets the
class prefix and the replaced label name, and its slave is bound to
the master name. -/
theorem fieldInit_spec_witness :
    (fieldInit (fun k _ => "Cls_" ++ k)
      { name := none, label := some (.tup none (some "other")),
        slaves := [{ sid := "s1", masterName := none }],
        labelId := "", descrId := "", helpId := "" }
      "title" (some "K") "MyApp").labelId = "Cls_K_other" ∧
    (fieldInit (fun k _ => "Cls_" ++ k)
      { name := none, label := some (.tup none (some "other")),
        slaves := [{ sid := "s1", masterName := none }],
        labelId := "", descrId := "", helpId := "" }
      "title" (some "K") "MyApp").slaves =
      [{ sid := "s1", masterName := some "title" }] := by
  have h := fieldInit_spec (fun k _ => "Cls_" ++ k)
    { name := none, label := some (.tup none (some "other")),
      slaves := [{ sid := "s1", masterName := none }],
      labelId := "", descrId := "", helpId := "" }
    "title" (some "K") "MyApp" rfl
  exact ⟨by rw [h.1]; rfl, by rw [h.2.2.2.1]; rfl⟩

/-- C4 counterexample: `Field(page='p', group='')` constructs without
error, but the empty string — a string group argument — is passed
through `Group.get` unchanged: the `group` attribute is `''`, which is
neither a `Group` instance nor `None`. -/
theorem fieldNewPG_empty_group :
    fieldNewPG (PageArg.str "p") (GroupArg.str "") =
      .ok { page := .page ⟨"p", "main"⟩, pageName := "p", group := GroupArg.str "" } ∧
    isGroupInstance (GroupArg.str "") = false := by
  exact ⟨rfl, rfl⟩

/-- C4 (amended): for every `Field` successfully constructed with a
truthy (non-empty) page argument — a page name string, a
`<pageName>_<phaseName>` string, or a `Page` instance — the `page`
attribute is a `Page` instance and `pageName` equals that page's name;
the `group` attribute is a `Group` instance whenever the group argument
is a *non-empty* string or a `Group` instance, and is `None` when the
group argument is `None` (an empty-string group argument is kept
unchanged, so the attribute is not a `Group` in that case). -/
theorem fieldNewPG_spec (pageArg : PageArg) (groupArg : GroupArg) (fld : FieldPG)
    (hok : fieldNewPG pageArg groupArg = .ok fld)
    (htr : pageArgTruthy pageArg = true) :
    (∃ p, fld.page = PageArg.page p ∧ fld.pageName = p.name) ∧
    (groupArg = GroupArg.pyNone → fld.group = GroupArg.pyNone) ∧
    (∀ s, groupArg = GroupArg.str s → s ≠ "" → isGroupInstance fld.group = true) ∧
    (∀ g, groupArg = GroupArg.group g → fld.group = GroupArg.group g) := by
  rcases hpg : pageGet pageArg with e | pg
  · simp [fieldNewPG, hpg] at hok
  · rcases pg with _ | s | p
    · simp [fieldNewPG, hpg] at hok
    · simp [fieldNewPG, hpg] at hok
    · rcases hgr : groupGet groupArg with e | gr
      · simp [fieldNewPG, hpg, hgr] at hok
      · simp only [fieldNewPG, hpg, hgr, Except.ok.injEq] at hok
        subst hok
        refine ⟨⟨p, rfl, rfl⟩, ?_, ?_, ?_⟩
        · rintro rfl
          simp [groupGet] at hgr
          simp [hgr]
        · rintro s' rfl hs'
          simp only [groupGet, if_neg hs'] at hgr
          rcases hsp : splitAtLastUnderscore s'.data with _ | ⟨nameChars, nbChars⟩
          · rw [hsp] at hgr
            simp only [Except.ok.injEq] at hgr
            simp [← hgr, isGroupInstance]
          · rw [hsp] at hgr
            by_cases hnb : ((pyParseInt (String.mk nbChars)).getD 1) = 0
            · simp [hnb] at hgr
            · simp only [hnb, if_neg, Except.ok.injEq, if_false] at hgr
              simp [← hgr, isGroupInstance]
        · rintro g rfl
          simp [groupGet] at hgr
          simp [hgr]

/-- C4 witness: the amended theorem applied to the page string
`'config'` and the group string `'main_2'`. -/
theorem fieldNewPG_spec_witness :
    isGroupInstance
      { page := .page ⟨"config", "main"⟩, pageName := "config",
        group := GroupArg.group (.mk0 "main" 1
          [⟨"50.00%", "left"⟩, ⟨"50.00%", "left"⟩]) : FieldPG }.group = true := by
  have h := (fieldNewPG_spec (PageArg.str "config") (GroupArg.str "main_2")
    { page := .page ⟨"config", "main"⟩, pageName := "config",
      group := GroupArg.group (.mk0 "main" 1
        [⟨"50.00%", "left"⟩, ⟨"50.00%", "left"⟩]) }
    (by rfl) (by decide)).2.2.1 "main_2" rfl (by decide)
  exact h

theorem dropLast_append_single (xs : List α) (a : α) : (xs ++ [a]).dropLast = xs := by
  induction xs with
  | nil => rfl
  | cons x xs ih =>
    cases xs with
    | nil => rfl
    | cons y ys => simpa using ih

theorem getLastD_append_single (xs : List α) (a d : α) : (xs ++ [a]).getLastD d = a := by
  induction xs with
  | nil => rfl
  | cons x xs ih =>
    cases xs with
    | nil => rfl
    | cons y ys => simpa using ih

theorem rowSpan_append (r1 r2 : List Cell) :
    rowSpan (r1 ++ r2) = rowSpan r1 + rowSpan r2 := by
  simp [rowSpan]

theorem rowSpan_single (c : Cell) : rowSpan [c] = cellColspan c := by
  simp [rowSpan]

theorem rowSpan_replicate_filler (k : Nat) :
    rowSpan (List.replicate k .filler) = (k : Int) := by
  induction k with
  | zero => rfl
  | succ n ih => simp [List.replicate_succ, rowSpan, cellColspan] at ih ⊢; omega

/-- C10: assuming every widget handed to `UiGroup.addField` spans at
most the group's number of columns, `addField` preserves the row
invariant — every row except the last sums exactly to the column count
(a filler counting as one) and the last row sums to at most it — and it
appends the widget to the last row exactly when its colspan fits the
remaining free columns, otherwise terminating that row with fillers and
starting a new row holding the widget, so widgets occupy rows in
insertion order and are never split. -/
theorem addField_spec (rows : List (List Cell)) (numberOfColumns : Nat)
    (wid : String) (cs : Int)
    (hinv : uiRowsInv rows numberOfColumns)
    (hcs : cs ≤ (numberOfColumns : Int)) :
    uiRowsInv (addFieldRows rows numberOfColumns (.item wid cs)) numberOfColumns ∧
    (cs ≤ (numberOfColumns : Int) - rowSpan (rows.getLastD []) →
      addFieldRows rows numberOfColumns (.item wid cs) =
        rows.dropLast ++ [rows.getLastD [] ++ [.item wid cs]]) ∧
    ((numberOfColumns : Int) - rowSpan (rows.getLastD []) < cs →
      addFieldRows rows numberOfColumns (.item wid cs) =
        rows.dropLast ++
          [rows.getLastD [] ++
            List.replicate ((numberOfColumns : Int) - rowSpan (rows.getLastD [])).toNat
              .filler,
           [Cell.item wid cs]]) := by
  obtain ⟨hne, hfull, hlast, hnf⟩ := hinv
  by_cases hc : cs ≤ (numberOfColumns : Int) - rowSpan (rows.getLastD [])
  · have heq : addFieldRows rows numberOfColumns (.item wid cs) =
        rows.dropLast ++ [rows.getLastD [] ++ [.item wid cs]] := by
      simp only [addFieldRows, cellColspan]
      rw [if_pos hc]
    refine ⟨?_, fun _ => heq, fun h => absurd hc (by omega)⟩
    rw [heq]
    refine ⟨by simp, ?_, ?_, ?_⟩
    · intro row hrow
      rw [dropLast_append_single] at hrow
      exact hfull row hrow
    · rw [getLastD_append_single, rowSpan_append, rowSpan_single]
      simp only [cellColspan]
      omega
    · rw [getLastD_append_single]
      intro c hc'
      rcases List.mem_append.mp hc' with h | h
      · exact hnf c h
      · simp only [List.mem_singleton] at h
        subst h
        simp
  · have hfree : (0 : Int) ≤ (numberOfColumns : Int) - rowSpan (rows.getLastD []) := by
      omega
    have heq : addFieldRows rows numberOfColumns (.item wid cs) =
        rows.dropLast ++
          [rows.getLastD [] ++
            List.replicate ((numberOfColumns : Int) - rowSpan (rows.getLastD [])).toNat
              .filler,
           [Cell.item wid cs]] := by
      simp only [addFieldRows, cellColspan]
      rw [if_neg hc]
    refine ⟨?_, fun h => absurd h hc, fun _ => heq⟩
    rw [heq]
    have hsplit :
        rows.dropLast ++
          [rows.getLastD [] ++
            List.replicate ((numberOfColumns : Int) - rowSpan (rows.getLastD [])).toNat
              .filler,
           [Cell.item wid cs]] =
        (rows.dropLast ++
          [rows.getLastD [] ++
            List.replicate ((numberOfColumns : Int) - rowSpan (rows.getLastD [])).toNat
              .filler]) ++ [[Cell.item wid cs]] := by
      simp
    rw [hsplit]
    refine ⟨by simp, ?_, ?_, ?_⟩
    · intro row hrow
      rw [dropLast_append_single] at hrow
      rcases List.mem_append.mp hrow with h | h
      · exact hfull row h
      · simp only [List.mem_singleton] at h
        subst h
        rw [rowSpan_append, rowSpan_replicate_filler, Int.toNat_of_nonneg hfree]
        omega
    · rw [getLastD_append_single, rowSpan_single]
      simp only [cellColspan]
      omega
    · rw [getLastD_append_single]
      intro c hc'
      simp only [List.mem_singleton] at hc'
      subst hc'
      simp

/-- C10 witness: in a two-column group whose last row already holds a
one-column widget, a two-column widget starts a new row after a filler
terminates the first row, and the invariant is preserved. -/
theorem addField_spec_witness :
    uiRowsInv (addFieldRows [[Cell.item "a" 1]] 2 (.item "b" 2)) 2 ∧
    addFieldRows [[Cell.item "a" 1]] 2 (.item "b" 2) =
      [[Cell.item "a" 1, Cell.filler], [Cell.item "b" 2]] := by
  have h := addField_spec [[Cell.item "a" 1]] 2 "b" 2 (by
    refine ⟨by simp, by simp, by decide, by decide⟩) (by omega)
  exact ⟨h.1, by decide⟩

theorem alLookup_alInsert_self (l : List (String × UiGroupM)) (k : String) (v : UiGroupM) :
    alLookup (alInsert l k v) k = some v := by
  induction l with
  | nil => simp [alInsert, alLookup]
  | cons p rest ih =>
    rcases p with ⟨k0, v0⟩
    by_cases h : k0 = k <;> simp [alInsert, alLookup, h, ih]

theorem alLookup_alInsert_ne (l : List (String × UiGroupM)) (key k : String)
    (v : UiGroupM) (h : k ≠ key) :
    alLookup (alInsert l key v) k = alLookup l k := by
  induction l with
  | nil => simp [alInsert, alLookup, Ne.symm h]
  | cons p rest ih =>
    rcases p with ⟨k0, v0⟩
    by_cases h0 : k0 = key
    · subst h0
      simp [alInsert, alLookup, Ne.symm h]
    · simp [alInsert, alLookup, h0, ih]

theorem alLookup_alUpdate (l : List (String × UiGroupM)) (key k : String)
    (f : UiGroupM → UiGroupM) :
    alLookup (alUpdate l key f) k =
      if k = key then (alLookup l k).map f else alLookup l k := by
  induction l with
  | nil => simp [alUpdate, alLookup]
  | cons p rest ih =>
    rcases p with ⟨k0, v0⟩
    by_cases h0 : k0 = key
    · subst h0
      by_cases hk : k0 = k
      · subst hk
        simp [alUpdate, alLookup]
      · simp [alUpdate, alLookup, hk, Ne.symm hk]
    · by_cases hk : k0 = k
      · subst hk
        simp [alUpdate, alLookup, h0, Ne.symm h0]
      · simp [alUpdate, alLookup, h0, hk, ih]

theorem addFieldRows_mem (rows : List (List Cell)) (n : Nat) (c : Cell) :
    c ∈ (addFieldRows rows n c).flatten := by
  unfold addFieldRows
  by_cases h : cellColspan c ≤ (n : Int) - rowSpan (rows.getLastD [])
  · rw [if_pos h]
    refine List.mem_flatten.mpr ⟨rows.getLastD [] ++ [c], ?_, by simp⟩
    exact List.mem_append_right _ (by simp)
  · rw [if_neg h]
    refine List.mem_flatten.mpr ⟨[c], ?_, by simp⟩
    exact List.mem_append_right _ (by simp)

theorem insertInto_snd (g : GroupR) (st : InsertState) :
    (insertInto g st).2 = g.name := by
  cases g with
  | mk0 n c cols =>
    cases h : alLookup st.uiGroups n <;> simp [insertInto, h, GroupR.name]
  | mkIn n c cols pg =>
    cases h : alLookup st.uiGroups n <;> simp [insertInto, h, GroupR.name]

theorem insertInto_preserves (g : GroupR) : ∀ (st : InsertState) (k : String),
    (alLookup st.uiGroups k).isSome = true →
    (alLookup (insertInto g st).1.uiGroups k).isSome = true := by
  induction g with
  | mk0 n c cols =>
    intro st k hk
    cases h : alLookup st.uiGroups n with
    | some v => simpa [insertInto, h] using hk
    | none =>
      simp only [insertInto, h]
      by_cases hkn : k = n
      · subst hkn
        simp [alLookup_alInsert_self]
      · rw [alLookup_alInsert_ne _ _ _ _ hkn]
        exact hk
  | mkIn n c cols pg ih =>
    intro st k hk
    cases h : alLookup st.uiGroups n with
    | some v => simpa [insertInto, h] using hk
    | none =>
      simp only [insertInto, h]
      have h1 : (alLookup
          (alInsert st.uiGroups n (uiGroupInit (.mkIn n c cols pg))) k).isSome = true := by
        by_cases hkn : k = n
        · subst hkn
          simp [alLookup_alInsert_self]
        · rw [alLookup_alInsert_ne _ _ _ _ hkn]
          exact hk
      have h2 := ih { st with
        uiGroups := alInsert st.uiGroups n (uiGroupInit (.mkIn n c cols pg)) } k h1
      rw [alLookup_alUpdate]
      by_cases hkr : k = (insertInto pg { st with
        uiGroups := alInsert st.uiGroups n (uiGroupInit (.mkIn n c cols pg)) }).2
      · rw [if_pos hkr]
        rw [hkr] at h2 ⊢
        simpa using h2
      · rw [if_neg hkr]
        exact h2

theorem insertInto_lookup_self (g : GroupR) (st : InsertState) :
    (alLookup (insertInto g st).1.uiGroups g.name).isSome = true := by
  cases g with
  | mk0 n c cols =>
    cases h : alLookup st.uiGroups n with
    | some v => simp [insertInto, h, GroupR.name]
    | none => simp [insertInto, h, GroupR.name, alLookup_alInsert_self]
  | mkIn n c cols pg =>
    cases h : alLookup st.uiGroups n with
    | some v => simp [insertInto, h, GroupR.name]
    | none =>
      simp only [insertInto, GroupR.name, h]
      have h1 : (alLookup
          (alInsert st.uiGroups n (uiGroupInit (.mkIn n c cols pg))) n).isSome = true := by
        simp [alLookup_alInsert_self]
      have h2 := insertInto_preserves pg { st with
        uiGroups := alInsert st.uiGroups n (uiGroupInit (.mkIn n c cols pg)) } n h1
      rw [alLookup_alUpdate]
      by_cases hkr : n = (insertInto pg { st with
        uiGroups := alInsert st.uiGroups n (uiGroupInit (.mkIn n c cols pg)) }).2
      · rw [if_pos hkr]
        rw [hkr] at h2 ⊢
        simpa using h2
      · rw [if_neg hkr]
        exact h2

/-- C5: `Group.insertInto` creates at most one `UiGroup` per group name:
when the group's name is already a key of `uiGroups`, that `UiGroup` is
returned and the state is unchanged; on first insertion the group's name
is bound in `uiGroups`, the new `UiGroup` is appended directly to
`fields` exactly when the group has no containing group, and otherwise
`fields` is only extended by the recursive insertion of the containing
group, whose `UiGroup` receives the new one as a field via
`addField`. -/
theorem insertInto_spec (g : GroupR) (st : InsertState) :
    (insertInto g st).2 = g.name ∧
    ((alLookup st.uiGroups g.name).isSome = true → insertInto g st = (st, g.name)) ∧
    (alLookup st.uiGroups g.name = none →
      (alLookup (insertInto g st).1.uiGroups g.name).isSome = true ∧
      (g.parent = none →
        insertInto g st =
          ({ fields := st.fields ++ [Item.groupRef g.name],
             uiGroups := alInsert st.uiGroups g.name (uiGroupInit g) }, g.name)) ∧
      (∀ pg, g.parent = some pg →
        (insertInto g st).1.fields =
          (insertInto pg
            { st with
                uiGroups := alInsert st.uiGroups g.name (uiGroupInit g) }).1.fields ∧
        ∃ u, alLookup (insertInto g st).1.uiGroups pg.name = some u ∧
          Cell.item g.name g.colspan ∈ u.fields.flatten)) := by
  refine ⟨insertInto_snd g st, ?_, ?_⟩
  · intro hk
    cases g with
    | mk0 n c cols =>
      obtain ⟨v, hv⟩ := Option.isSome_iff_exists.mp hk
      simp only [GroupR.name] at hv
      simp [insertInto, hv, GroupR.name]
    | mkIn n c cols pg =>
      obtain ⟨v, hv⟩ := Option.isSome_iff_exists.mp hk
      simp only [GroupR.name] at hv
      simp [insertInto, hv, GroupR.name]
  · intro hnone
    refine ⟨insertInto_lookup_self g st, ?_, ?_⟩
    · intro hpar
      cases g with
      | mk0 n c cols =>
        simp only [GroupR.name] at hnone
        simp [insertInto, hnone, GroupR.name, uiGroupInit]
      | mkIn n c cols pg => simp [GroupR.parent] at hpar
    · intro pg hpar
      cases g with
      | mk0 n c cols => simp [GroupR.parent] at hpar
      | mkIn n c cols pg0 =>
        simp only [GroupR.parent, Option.some.injEq] at hpar
        subst hpar
        simp only [GroupR.name] at hnone
        constructor
        · simp [insertInto, hnone, GroupR.name, uiGroupInit]
        · have hself := insertInto_lookup_self pg0 { st with
            uiGroups := alInsert st.uiGroups n (uiGroupInit (.mkIn n c cols pg0)) }
          obtain ⟨u0, hu0⟩ := Option.isSome_iff_exists.mp hself
          have hsnd := insertInto_snd pg0 { st with
            uiGroups := alInsert st.uiGroups n (uiGroupInit (.mkIn n c cols pg0)) }
          refine ⟨addField u0 (Cell.item n c), ?_, ?_⟩
          · simp only [insertInto, hnone]
            rw [alLookup_alUpdate, hsnd, if_pos rfl, hu0]
            rfl
          · simp only [addField, GroupR.name, GroupR.colspan]
            exact addFieldRows_mem _ _ _

/-- C5 witness: inserting a group contained in another group into an
empty layout appends only the outer `UiGroup` to the field list and
stores the inner one as a cell of the outer one. -/
theorem insertInto_spec_witness :
    (insertInto
        (GroupR.mkIn "child" 1 [⟨"100%", "left"⟩] (.mk0 "parent" 1 [⟨"100%", "left"⟩]))
        ⟨[], []⟩).1.fields = [Item.groupRef "parent"] ∧
    ∃ u, alLookup
        (insertInto
          (GroupR.mkIn "child" 1 [⟨"100%", "left"⟩] (.mk0 "parent" 1 [⟨"100%", "left"⟩]))
          ⟨[], []⟩).1.uiGroups "parent" = some u ∧
      Cell.item "child" 1 ∈ u.fields.flatten := by
  have h := ((insertInto_spec
      (GroupR.mkIn "child" 1 [⟨"100%", "left"⟩] (.mk0 "parent" 1 [⟨"100%", "left"⟩]))
      ⟨[], []⟩).2.2 rfl).2.2 (.mk0 "parent" 1 [⟨"100%", "left"⟩]) rfl
  refine ⟨?_, h.2⟩
  rw [h.1]
  decide

theorem dictHas_iff (d : List (String × PageInfo)) (p : String) :
    dictHas d p = true ↔ ∃ v, pyDictGet d p = .ok v := by
  unfold dictHas
  cases h : pyDictGet d p <;> simp

theorem pyIndex_not_mem (l : List String) (x : String) (h : x ∉ l) :
    pyIndex l x = none := by
  induction l with
  | nil => rfl
  | cons a rest ih =>
    simp only [List.mem_cons, not_or] at h
    simp [pyIndex, Ne.symm h.1, ih h.2]

theorem pyIndex_append_cons (l1 l2 : List String) (x : String) (h : x ∉ l1) :
    pyIndex (l1 ++ x :: l2) x = some l1.length := by
  induction l1 with
  | nil => simp [pyIndex]
  | cons a rest ih =>
    simp only [List.mem_cons, not_or] at h
    simp [pyIndex, Ne.symm h.1, ih h.2]

theorem cons_middle (l1 rest : List String) (x : String) :
    l1 ++ x :: rest = (l1 ++ [x]) ++ rest := by
  simp

theorem get?_append_len (l1 l2 : List String) (x : String) :
    (l1 ++ x :: l2).get? l1.length = some x := by
  induction l1 with
  | nil => rfl
  | cons a rest ih => simpa using ih

theorem getLast?_append_one (l : List String) (a : String) :
    (l ++ [a]).getLast? = some a := by
  induction l with
  | nil => rfl
  | cons x rest ih =>
    cases rest with
    | nil => rfl
    | cons y ys => simpa using ih

/-- C6: for a phase with a non-empty, duplicate-free page list whose
`pagesInfo` covers its pages, `getNextPage(page)` returns the following
page with its `pagesInfo` entry when `page` occurs at a non-final
position; when `page` is the last element it returns the first page of
`nextPhase` (with that phase's `pagesInfo` entry) if a next phase is
set, and `(None, None)` otherwise; and when `page` does not occur it
returns the first page of the current phase with its entry.
`getPreviousPage` is symmetric, returning the preceding page, or the
last page of `previousPhase`, or `(None, None)`. -/
theorem phase_nav_spec (ph : PhaseM)
    (hnd : ph.pages.Nodup) (hne : ph.pages ≠ [])
    (hcov : ∀ p ∈ ph.pages, dictHas ph.pagesInfo p = true) :
    (∀ l1 page q l2, ph.pages = l1 ++ page :: q :: l2 →
      ∃ v, pyDictGet ph.pagesInfo q = .ok v ∧
        getNextPage ph page = .ok (some q, some v)) ∧
    (∀ l1 page, ph.pages = l1 ++ [page] →
      (∀ np, ph.nextPhase = some np →
        ∀ q qs, np.pages = q :: qs → dictHas np.pagesInfo q = true →
          ∃ v, pyDictGet np.pagesInfo q = .ok v ∧
            getNextPage ph page = .ok (some q, some v)) ∧
      (ph.nextPhase = none → getNextPage ph page = .ok (none, none))) ∧
    (∀ page, page ∉ ph.pages →
      ∀ q qs, ph.pages = q :: qs →
        ∃ v, pyDictGet ph.pagesInfo q = .ok v ∧
          getNextPage ph page = .ok (some q, some v)) ∧
    (∀ l1 q page l2, ph.pages = l1 ++ q :: page :: l2 →
      ∃ v, pyDictGet ph.pagesInfo q = .ok v ∧
        getPreviousPage ph page = .ok (some q, some v)) ∧
    (∀ page rest, ph.pages = page :: rest →
      (∀ pp, ph.previousPhase = some pp →
        ∀ m1 q, pp.pages = m1 ++ [q] → dictHas pp.pagesInfo q = true →
          ∃ v, pyDictGet pp.pagesInfo q = .ok v ∧
            getPreviousPage ph page = .ok (some q, some v)) ∧
      (ph.previousPhase = none → getPreviousPage ph page = .ok (none, none))) ∧
    (∀ page, page ∉ ph.pages →
      ∀ q qs, ph.pages = q :: qs →
        ∃ v, pyDictGet ph.pagesInfo q = .ok v ∧
          getPreviousPage ph page = .ok (some q, some v)) := by
  refine ⟨?_, ?_, ?_, ?_, ?_, ?_⟩
  · -- getNextPage, non-final occurrence
    intro l1 page q l2 hp
    have hnd' := hp ▸ hnd
    have hdisj := (List.nodup_append.mp hnd').2.2
    have hpl1 : page ∉ l1 := fun hmem => hdisj hmem (by simp)
    have hidx : pyIndex ph.pages page = some l1.length := by
      rw [hp]; exact pyIndex_append_cons l1 (q :: l2) page hpl1
    have hqmem : q ∈ ph.pages := by rw [hp]; simp
    obtain ⟨v, hv⟩ := (dictHas_iff _ _).mp (hcov q hqmem)
    refine ⟨v, hv, ?_⟩
    have hlen : l1.length + 1 < ph.pages.length := by
      rw [hp]; simp only [List.length_append, List.length_cons]; omega
    have hget : ph.pages.get? (l1.length + 1) = some q := by
      rw [hp, cons_middle]
      have := get?_append_len (l1 ++ [page]) l2 q
      simpa using this
    simp only [getNextPage, hidx, if_pos hlen, hget, hv]
    rfl
  · -- getNextPage, last element
    intro l1 page hp
    have hnd' := hp ▸ hnd
    have hdisj := (List.nodup_append.mp hnd').2.2
    have hpl1 : page ∉ l1 := fun hmem => hdisj hmem (by simp)
    have hidx : pyIndex ph.pages page = some l1.length := by
      rw [hp]; exact pyIndex_append_cons l1 [] page hpl1
    have hlen : ¬(l1.length + 1 < ph.pages.length) := by
      rw [hp]; simp
    constructor
    · intro np hnp q qs hq hdq
      obtain ⟨v, hv⟩ := (dictHas_iff _ _).mp hdq
      refine ⟨v, hv, ?_⟩
      simp only [getNextPage, hidx, if_neg hlen, hnp, hq, hv]
      rfl
    · intro hnp
      simp only [getNextPage, hidx, if_neg hlen, hnp]
  · -- getNextPage, page not listed
    intro page hpm q qs hp
    have hidx : pyIndex ph.pages page = none := pyIndex_not_mem _ _ hpm
    have hqmem : q ∈ ph.pages := by rw [hp]; simp
    obtain ⟨v, hv⟩ := (dictHas_iff _ _).mp (hcov q hqmem)
    refine ⟨v, hv, ?_⟩
    rw [hp] at hidx
    simp only [getNextPage, hp, hidx, hv]
    rfl
  · -- getPreviousPage, non-initial occurrence
    intro l1 q page l2 hp
    have hnd' := hp ▸ hnd
    have hdisj := (List.nodup_append.mp hnd').2.2
    have hcons := (List.nodup_append.mp hnd').2.1
    have hpl1 : page ∉ l1 := fun hmem => hdisj hmem (by simp)
    have hpq : ¬(q = page) := by
      intro h
      subst h
      exact (List.nodup_cons.mp hcons).1 (by simp)
    have hidx : pyIndex ph.pages page = some (l1.length + 1) := by
      rw [hp, cons_middle]
      have := pyIndex_append_cons (l1 ++ [q]) l2 page
        (by
          intro hmem
          rcases List.mem_append.mp hmem with h | h
          · exact hpl1 h
          · simp at h
            exact hpq h.symm)
      simpa using this
    have hqmem : q ∈ ph.pages := by rw [hp]; simp
    obtain ⟨v, hv⟩ := (dictHas_iff _ _).mp (hcov q hqmem)
    refine ⟨v, hv, ?_⟩
    have hget : ph.pages.get? (l1.length + 1 - 1) = some q := by
      simpa [hp] using get?_append_len l1 (page :: l2) q
    simp only [getPreviousPage, hidx, if_pos (by omega : 0 < l1.length + 1), hget, hv]
    rfl
  · -- getPreviousPage, first element
    intro page rest hp
    have hidx : pyIndex ph.pages page = some 0 := by
      rw [hp]; simp [pyIndex]
    constructor
    · intro pp hpp m1 q hq hdq
      obtain ⟨v, hv⟩ := (dictHas_iff _ _).mp hdq
      refine ⟨v, hv, ?_⟩
      have hlast : pp.pages.getLast? = some q := by
        rw [hq]; exact getLast?_append_one m1 q
      simp only [getPreviousPage, hidx, if_neg (by omega : ¬(0 : Nat) < 0), hpp, hlast, hv]
      rfl
    · intro hpp
      simp only [getPreviousPage, hidx, if_neg (by omega : ¬(0 : Nat) < 0), hpp]
  · -- getPreviousPage, page not listed
    intro page hpm q qs hp
    have hidx : pyIndex ph.pages page = none := pyIndex_not_mem _ _ hpm
    have hqmem : q ∈ ph.pages := by rw [hp]; simp
    obtain ⟨v, hv⟩ := (dictHas_iff _ _).mp (hcov q hqmem)
    refine ⟨v, hv, ?_⟩
    rw [hp] at hidx
    simp only [getPreviousPage, hp, hidx, hv]
    rfl

/-- C6 witness: in a phase with pages `a, b`, the page following `a` is
`b` together with its `pagesInfo` entry. -/
theorem phase_nav_spec_witness :
    getNextPage
      { pages := ["a", "b"],
        pagesInfo := [("a", ⟨1⟩), ("b", ⟨2⟩)],
        previousPhase := none,
        nextPhase := some { pages := ["c"], pagesInfo := [("c", ⟨3⟩)] } } "a" =
      .ok (some "b", some ⟨2⟩) := by
  obtain ⟨v, hv, he⟩ := (phase_nav_spec
      { pages := ["a", "b"],
        pagesInfo := [("a", ⟨1⟩), ("b", ⟨2⟩)],
        previousPhase := none,
        nextPhase := some { pages := ["c"], pagesInfo := [("c", ⟨3⟩)] } }
      (by decide) (by decide) (by decide)).1 [] "a" "b" [] rfl
  have hcomp : pyDictGet [("a", (⟨1⟩ : PageInfo)), ("b", ⟨2⟩)] "b" = .ok ⟨2⟩ := by rfl
  rw [hcomp] at hv
  injection hv with h
  rw [← h] at he
  exact he
